import Mathlib

/-!
Shallow embedding of the disruptor_cpp coordination core
(`src/disruptor/sequencer.h`, `wait_strategies.h`, `ring_buffer.h`,
`sequence_barrier.h`, `event_processor.h`, `exception_handler.h`).

Machine `int64_t` values are modelled as `Int`; the producer-side fields
`nextValue_` / `cachedValue_` and the cursor are plain `Int` state.
Concurrent reads of shared sequences are modelled by oracles
(`ℕ → _` functions giving the value observed at each poll), and the
unbounded spin loops are modelled with fuel, returning `none` while the
loop is still spinning.
-/

/-- `std::numeric_limits<int64_t>::max()`, the seed used by
`getMinimumGatingSequence` and `dependents_get`. -/
def int64Max : Int := 9223372036854775807

/-- State of `SingleProducerSequencer<N, WaitStrategy>`:
`cursor_` (the published cursor `Sequence`), `nextValue_` (last claimed
sequence) and `cachedValue_` (last observed minimum gating sequence). -/
structure SPSequencer where
  cursor : Int
  nextValue : Int
  cachedValue : Int
deriving DecidableEq, Repr

/-- The constructor `SingleProducerSequencer(waitStrategy)`:
`nextValue_ = -1`, `cachedValue_ = -1`, `cursor_.set(-1)`. -/
def SPSequencer.init : SPSequencer := ⟨-1, -1, -1⟩

/-- `getMinimumGatingSequence(minimum)`: fold `min` over the current
values of the registered gating sequences, starting from `minimum`. -/
def getMinimumGatingSequence (gating : List Int) (minimum : Int) : Int :=
  gating.foldl (fun m v => min m v) minimum

/-- The producer wait loop
`while (wrapPoint > (minSeq = getMinimumGatingSequence(nextValue_))) producerWait();`
of `SingleProducerSequencer::next`.  `gatingAt k` gives the values of the
gating sequences observed at the k-th poll (they change concurrently as
consumers advance); the result is the final observed minimum together
with the number of `producerWait()` calls executed, or `none` if the
loop is still spinning when the fuel runs out. -/
def gatingWaitLoop (wrapPoint nextValue : Int) (gatingAt : ℕ → List Int) :
    ℕ → ℕ → Option (Int × ℕ)
  | 0, _ => none
  | fuel + 1, k =>
    let minSeq := getMinimumGatingSequence (gatingAt k) nextValue
    if wrapPoint > minSeq then gatingWaitLoop wrapPoint nextValue gatingAt fuel (k + 1)
    else some (minSeq, k)

/-- Outcome of one call to `SingleProducerSequencer::next(n)`:
`err` is the `std::invalid_argument` throw, `spinning` means the wait
loop had not exited within the fuel bound, `ok ret waits` is a normal
return of `ret` after `waits` calls to `producerWait()`. -/
inductive NextOutcome
  | err
  | spinning
  | ok (ret : Int) (waits : ℕ)
deriving DecidableEq, Repr

/-- `SingleProducerSequencer<N>::next(n)` as a state transformer.
Mirrors the source line by line: validate `1 ≤ n ≤ N`; compute
`nextSeq`, `wrapPoint`, read `cachedValue_`; if
`wrapPoint > cachedGating || cachedGating > nextValue_` run the gating
wait loop and store the observed minimum into `cachedValue_`; finally
store `nextValue_ = nextSeq` and return `nextSeq`.  The state component
of the result is the sequencer state after the call (unchanged when the
call throws or is still spinning). -/
def nextRun (N : ℕ) (gatingAt : ℕ → List Int) (fuel : ℕ)
    (st : SPSequencer) (n : Int) : NextOutcome × SPSequencer :=
  if n < 1 ∨ n > (N : Int) then (NextOutcome.err, st)
  else
    let nextSeq := st.nextValue + n
    let wrapPoint := nextSeq - (N : Int)
    let cachedGating := st.cachedValue
    if wrapPoint > cachedGating ∨ cachedGating > st.nextValue then
      match gatingWaitLoop wrapPoint st.nextValue gatingAt fuel 0 with
      | none => (NextOutcome.spinning, st)
      | some (minSeq, w) =>
        (NextOutcome.ok nextSeq w,
          { st with nextValue := nextSeq, cachedValue := minSeq })
    else
      (NextOutcome.ok nextSeq 0, { st with nextValue := nextSeq })

/-- `SingleProducerSequencer::publish(sequence)`: `cursor_.set(sequence)`
(followed by `signalAllWhenBlocking()`, a no-op for the busy-spin
strategy). -/
def publishRun (st : SPSequencer) (s : Int) : SPSequencer :=
  { st with cursor := s }

/-- `SingleProducerSequencer::isAvailable(sequence)`. -/
def isAvailable (st : SPSequencer) (s : Int) : Bool :=
  s ≤ st.cursor

/-- `SingleProducerSequencer::getHighestPublishedSequence(lowerBound, available)`. -/
def getHighestPublishedSequence (lowerBound available : Int) : Int :=
  available

-- Basic facts about the gating fold and the wait loop.

lemma getMinimumGatingSequence_le_seed (gating : List Int) (minimum : Int) :
    getMinimumGatingSequence gating minimum ≤ minimum := by
  induction gating generalizing minimum with
  | nil => simp [getMinimumGatingSequence]
  | cons v tl ih =>
    have h := ih (min minimum v)
    calc getMinimumGatingSequence (v :: tl) minimum
        = getMinimumGatingSequence tl (min minimum v) := rfl
      _ ≤ min minimum v := h
      _ ≤ minimum := min_le_left _ _

lemma gatingWaitLoop_exit (wrapPoint nextValue : Int) (gatingAt : ℕ → List Int) :
    ∀ fuel k minSeq w,
      gatingWaitLoop wrapPoint nextValue gatingAt fuel k = some (minSeq, w) →
      wrapPoint ≤ minSeq ∧
        minSeq = getMinimumGatingSequence (gatingAt w) nextValue := by
  intro fuel
  induction fuel with
  | zero => intro k minSeq w h; simp [gatingWaitLoop] at h
  | succ fuel ih =>
    intro k minSeq w h
    simp only [gatingWaitLoop] at h
    split at h
    · exact ih (k + 1) minSeq w h
    · rename_i hle
      obtain ⟨h1, h2⟩ := Prod.mk.injEq .. ▸ Option.some.injEq .. ▸ h
      subst h1; subst h2
      exact ⟨le_of_not_lt hle, rfl⟩

/-- Full characterization of a successful `next(n)` call. -/
lemma nextRun_ok_spec {N : ℕ} {gatingAt : ℕ → List Int} {fuel : ℕ}
    {st : SPSequencer} {n r : Int} {w : ℕ} {st' : SPSequencer}
    (h : nextRun N gatingAt fuel st n = (NextOutcome.ok r w, st')) :
    1 ≤ n ∧ n ≤ (N : Int) ∧ r = st.nextValue + n ∧
      st'.nextValue = st.nextValue + n ∧ st'.cursor = st.cursor ∧
      r - (N : Int) ≤ st'.cachedValue ∧ st'.cachedValue ≤ st.nextValue ∧
      (st'.cachedValue = st.cachedValue ∨
        ∃ k, st'.cachedValue = getMinimumGatingSequence (gatingAt k) st.nextValue) := by
  unfold nextRun at h
  split at h
  · exact absurd (congrArg Prod.fst h) (by simp)
  · rename_i hval
    push_neg at hval
    obtain ⟨hn1, hnN⟩ := hval
    dsimp only at h
    split at h
    · rename_i hcond
      cases hgl : gatingWaitLoop (st.nextValue + n - (N : Int)) st.nextValue gatingAt fuel 0 with
      | none =>
        rw [hgl] at h
        exact absurd (congrArg Prod.fst h) (by simp)
      | some p =>
        obtain ⟨minSeq, w2⟩ := p
        rw [hgl] at h
        obtain ⟨hout, hst⟩ := Prod.mk.injEq .. ▸ h
        obtain ⟨hr, hw⟩ := NextOutcome.ok.injEq .. ▸ hout
        obtain ⟨hle, hmin⟩ := gatingWaitLoop_exit _ _ _ _ _ _ _ hgl
        subst hr; subst hst
        refine ⟨hn1, hnN, rfl, rfl, rfl, hle, ?_, Or.inr ⟨w2, hmin⟩⟩
        exact hmin ▸ getMinimumGatingSequence_le_seed _ _
    · rename_i hcond
      push_neg at hcond
      obtain ⟨hout, hst⟩ := Prod.mk.injEq .. ▸ h
      obtain ⟨hr, hw⟩ := NextOutcome.ok.injEq .. ▸ hout
      subst hr; subst hst
      exact ⟨hn1, hnN, rfl, rfl, rfl, hcond.1, hcond.2, Or.inl rfl⟩

/-- A `next(n)` call that does not return normally leaves the sequencer
state unchanged (the throw happens before any mutation, and a spinning
call has not yet reached the stores). -/
lemma nextRun_not_ok_state {N : ℕ} {gatingAt : ℕ → List Int} {fuel : ℕ}
    {st : SPSequencer} {n : Int} {o : NextOutcome} {st' : SPSequencer}
    (h : nextRun N gatingAt fuel st n = (o, st'))
    (ho : ∀ r w, o ≠ NextOutcome.ok r w) : st' = st := by
  unfold nextRun at h
  split at h
  · exact (Prod.mk.injEq .. ▸ h).2.symm
  · dsimp only at h
    split at h
    · cases hgl : gatingWaitLoop (st.nextValue + n - (N : Int)) st.nextValue gatingAt fuel 0 with
      | none =>
        rw [hgl] at h
        exact (Prod.mk.injEq .. ▸ h).2.symm
      | some p =>
        obtain ⟨minSeq, w2⟩ := p
        rw [hgl] at h
        obtain ⟨hout, _⟩ := Prod.mk.injEq .. ▸ h
        exact absurd hout.symm (ho _ _)
    · obtain ⟨hout, _⟩ := Prod.mk.injEq .. ▸ h
      exact absurd hout.symm (ho _ _)

/-- C1: No overwrite.  Every `next(n)` call that returns a claimed
sequence `s` satisfies `s − N ≤ cachedValue_` at the moment of return,
where `cachedValue_` is the minimum of the registered gating sequences
as last observed by the producer: it is either the value cached from an
earlier gating read (when the wait loop is skipped) or the final
observed minimum at which the wait loop exited.  The producer never
claims a slot the slowest gating consumer has not passed. -/
theorem next_no_overwrite (N : ℕ) (gatingAt : ℕ → List Int) (fuel : ℕ)
    (st : SPSequencer) (n s : Int) (w : ℕ) (st' : SPSequencer)
    (h : nextRun N gatingAt fuel st n = (NextOutcome.ok s w, st')) :
    s - (N : Int) ≤ st'.cachedValue ∧
      (st'.cachedValue = st.cachedValue ∨
        ∃ k, st'.cachedValue = getMinimumGatingSequence (gatingAt k) st.nextValue) := by
  obtain ⟨_, _, _, _, _, h6, _, h8⟩ := nextRun_ok_spec h
  exact ⟨h6, h8⟩

theorem next_no_overwrite_witness :
    nextRun 8 (fun _ => [3]) 1 ⟨2, 2, -1⟩ 1 =
        (NextOutcome.ok 3 0, ⟨2, 3, -1⟩) ∧
      (3 : Int) - (8 : Int) ≤ (-1 : Int) := by
  refine ⟨by decide, ?_⟩
  exact (next_no_overwrite 8 (fun _ => [3]) 1 ⟨2, 2, -1⟩ 1 3 0 ⟨2, 3, -1⟩ (by decide)).1

/-- C3: `next(n)` argument validation.  The call fails with the
invalid-argument error iff `n < 1` or `n > N`; on failure the sequencer
state (in particular `nextValue_` and `cachedValue_`) is unchanged, and
on success it returns `nextValue_ + n` and stores that value into
`nextValue_`. -/
theorem next_validation (N : ℕ) (gatingAt : ℕ → List Int) (fuel : ℕ)
    (st : SPSequencer) (n : Int) :
    ((nextRun N gatingAt fuel st n).1 = NextOutcome.err ↔
        (n < 1 ∨ n > (N : Int))) ∧
      ((nextRun N gatingAt fuel st n).1 = NextOutcome.err →
        (nextRun N gatingAt fuel st n).2 = st) ∧
      (∀ r w st', nextRun N gatingAt fuel st n = (NextOutcome.ok r w, st') →
        r = st.nextValue + n ∧ st'.nextValue = st.nextValue + n) := by
  refine ⟨⟨?_, ?_⟩, ?_, ?_⟩
  · intro h
    by_contra hval
    revert h
    unfold nextRun
    rw [if_neg hval]
    dsimp only
    split
    · cases hgl : gatingWaitLoop (st.nextValue + n - (N : Int)) st.nextValue gatingAt fuel 0 with
      | none => simp
      | some p => obtain ⟨m, w⟩ := p; simp
    · simp
  · intro hval
    unfold nextRun
    rw [if_pos hval]
  · intro h
    refine nextRun_not_ok_state
      (Prod.mk.eta (p := nextRun N gatingAt fuel st n)).symm ?_
    intro r w
    rw [h]
    exact fun hc => NextOutcome.noConfusion hc
  · intro r w st' h
    obtain ⟨_, _, h3, h4, _⟩ := nextRun_ok_spec h
    exact ⟨h3, h4⟩

theorem next_validation_witness :
    ((nextRun 8 (fun _ => []) 1 SPSequencer.init 9).1 = NextOutcome.err ↔
        ((9 : Int) < 1 ∨ (9 : Int) > (8 : Int))) ∧
      ((nextRun 8 (fun _ => []) 1 SPSequencer.init 9).1 = NextOutcome.err →
        (nextRun 8 (fun _ => []) 1 SPSequencer.init 9).2 = SPSequencer.init) ∧
      (∀ r w st',
        nextRun 8 (fun _ => []) 1 SPSequencer.init 9 = (NextOutcome.ok r w, st') →
        r = SPSequencer.init.nextValue + 9 ∧
          st'.nextValue = SPSequencer.init.nextValue + 9) :=
  next_validation 8 (fun _ => []) 1 SPSequencer.init 9

/-- C9: producer cache invariant.  After construction
`cachedValue_ ≤ nextValue_`, and the invariant is re-established by
every successful `next` call because the gating fold is seeded with
`nextValue_`.  Moreover with an empty gating set, `next(n)` with
`1 ≤ n ≤ N` succeeds on the very first poll without a single
`producerWait()` call. -/
theorem next_cache_invariant :
    SPSequencer.init.cachedValue ≤ SPSequencer.init.nextValue ∧
      (∀ (N : ℕ) (gatingAt : ℕ → List Int) (fuel : ℕ) (st : SPSequencer)
          (n r : Int) (w : ℕ) (st' : SPSequencer),
        nextRun N gatingAt fuel st n = (NextOutcome.ok r w, st') →
        st'.cachedValue ≤ st'.nextValue) ∧
      (∀ (N : ℕ) (fuel : ℕ) (st : SPSequencer) (n : Int),
        1 ≤ n → n ≤ (N : Int) → 1 ≤ fuel →
        ∃ r st', nextRun N (fun _ => []) fuel st n = (NextOutcome.ok r 0, st')) := by
  refine ⟨le_refl _, ?_, ?_⟩
  · intro N gatingAt fuel st n r w st' h
    obtain ⟨hn1, _, _, h4, _, _, h7, _⟩ := nextRun_ok_spec h
    rw [h4]
    calc st'.cachedValue ≤ st.nextValue := h7
      _ ≤ st.nextValue + n := by linarith
  · intro N fuel st n hn1 hnN hfuel
    by_cases hc : st.nextValue + n - (N : Int) > st.cachedValue ∨
        st.cachedValue > st.nextValue
    · refine ⟨st.nextValue + n,
        { st with nextValue := st.nextValue + n, cachedValue := st.nextValue }, ?_⟩
      unfold nextRun
      rw [if_neg (by push_neg; exact ⟨hn1, hnN⟩)]
      dsimp only
      rw [if_pos hc]
      obtain ⟨fuel2, rfl⟩ : ∃ f, fuel = f + 1 := ⟨fuel - 1, by omega⟩
      simp only [gatingWaitLoop, getMinimumGatingSequence, List.foldl_nil]
      rw [if_neg (by push_neg; linarith)]
    · refine ⟨st.nextValue + n, { st with nextValue := st.nextValue + n }, ?_⟩
      unfold nextRun
      rw [if_neg (by push_neg; exact ⟨hn1, hnN⟩)]
      dsimp only
      rw [if_neg hc]

theorem next_cache_invariant_witness :
    SPSequencer.init.cachedValue ≤ SPSequencer.init.nextValue ∧
      (∃ r st', nextRun 8 (fun _ => []) 1 SPSequencer.init 8 =
        (NextOutcome.ok r 0, st')) :=
  ⟨next_cache_invariant.1,
    next_cache_invariant.2.2 8 1 SPSequencer.init 8 (by decide) (by decide)
      (by decide)⟩

/-!
Producer operation traces (for the monotonic-cursor property).
A protocol-following producer interleaves `next` calls with `publish`
calls, publishing previously claimed sequences in claim order.  The
`pending` list is the ghost queue of claimed-but-unpublished sequences.
-/

/-- One producer operation: a claim (`sequencer.next(n)`, with its own
gating observations and fuel) or a publication of the oldest pending
claim. -/
inductive POp
  | claim (n : Int) (gatingAt : ℕ → List Int) (fuel : ℕ)
  | publish

/-- Producer-side state: the sequencer plus the ghost queue of claimed
but not yet published sequences (in claim order). -/
structure ProducerState where
  seqr : SPSequencer
  pending : List Int

/-- Initial producer state: freshly constructed sequencer, nothing
claimed. -/
def ProducerState.init : ProducerState := ⟨SPSequencer.init, []⟩

/-- One step of the producer protocol.  A successful claim appends the
returned sequence to the pending queue; `publish` publishes the oldest
pending claim through `SingleProducerSequencer::publish` (publishing in
claim order is the protocol; with nothing pending there is nothing to
publish and the state is unchanged). -/
def pstep (N : ℕ) (st : ProducerState) : POp → ProducerState
  | POp.claim n gatingAt fuel =>
    match nextRun N gatingAt fuel st.seqr n with
    | (NextOutcome.ok r _, s2) => ⟨s2, st.pending ++ [r]⟩
    | (_, s2) => ⟨s2, st.pending⟩
  | POp.publish =>
    match st.pending with
    | [] => st
    | h :: t => ⟨publishRun st.seqr h, t⟩

/-- Run a list of producer operations. -/
def prun (N : ℕ) (ops : List POp) (st : ProducerState) : ProducerState :=
  ops.foldl (pstep N) st

/-- Protocol invariant tying the cursor, the claimed-but-unpublished
queue and `nextValue_` together. -/
def PInv (st : ProducerState) : Prop :=
  st.seqr.cursor ≤ st.seqr.nextValue ∧
    st.pending.Pairwise (· < ·) ∧
    (∀ x ∈ st.pending, st.seqr.cursor < x) ∧
    (∀ x ∈ st.pending, x ≤ st.seqr.nextValue)

lemma PInv_init : PInv ProducerState.init := by
  refine ⟨le_refl _, List.Pairwise.nil, ?_, ?_⟩ <;> intro x hx <;> cases hx

lemma pstep_preserves (N : ℕ) (st : ProducerState) (op : POp)
    (hInv : PInv st) :
    PInv (pstep N st op) ∧ st.seqr.cursor ≤ (pstep N st op).seqr.cursor := by
  obtain ⟨h1, h2, h3, h4⟩ := hInv
  cases op with
  | claim n gatingAt fuel =>
    simp only [pstep]
    cases hn : nextRun N gatingAt fuel st.seqr n with
    | mk o s2 =>
      cases o with
      | ok r w =>
        obtain ⟨hn1, _, hr, hnv, hcur, _⟩ := nextRun_ok_spec hn
        have hlt : st.seqr.nextValue < r := by rw [hr]; linarith
        refine ⟨⟨?_, ?_, ?_, ?_⟩, le_of_eq hcur.symm⟩
        · rw [hcur, hnv]; linarith
        · refine List.pairwise_append.mpr ⟨h2, List.pairwise_singleton _ _, ?_⟩
          intro x hx y hy
          rw [List.mem_singleton] at hy
          subst hy
          exact lt_of_le_of_lt (h4 x hx) hlt
        · intro x hx
          rw [hcur]
          rcases List.mem_append.mp hx with hx | hx
          · exact h3 x hx
          · rw [List.mem_singleton] at hx
            subst hx
            exact lt_of_le_of_lt h1 hlt
        · intro x hx
          rw [hnv]
          rcases List.mem_append.mp hx with hx | hx
          · calc x ≤ st.seqr.nextValue := h4 x hx
              _ ≤ st.seqr.nextValue + n := by linarith
          · rw [List.mem_singleton] at hx
            subst hx
            rw [hr]
      | err =>
        have := nextRun_not_ok_state hn (by intro r w hc; exact NextOutcome.noConfusion hc)
        subst this
        exact ⟨⟨h1, h2, h3, h4⟩, le_refl _⟩
      | spinning =>
        have := nextRun_not_ok_state hn (by intro r w hc; exact NextOutcome.noConfusion hc)
        subst this
        exact ⟨⟨h1, h2, h3, h4⟩, le_refl _⟩
  | publish =>
    simp only [pstep]
    cases hp : st.pending with
    | nil => exact ⟨⟨h1, h2, h3, h4⟩, le_refl _⟩
    | cons hd tl =>
      dsimp only [publishRun]
      rw [hp] at h2 h3 h4
      have hhd : st.seqr.cursor < hd := h3 hd (List.mem_cons_self hd tl)
      refine ⟨⟨?_, (List.pairwise_cons.mp h2).2, ?_, ?_⟩, le_of_lt hhd⟩
      · exact h4 hd (List.mem_cons_self hd tl)
      · intro x hx
        exact (List.pairwise_cons.mp h2).1 x hx
      · intro x hx
        exact h4 x (List.mem_cons_of_mem _ hx)

lemma prun_preserves (N : ℕ) (ops : List POp) (st : ProducerState)
    (hInv : PInv st) :
    PInv (prun N ops st) ∧ st.seqr.cursor ≤ (prun N ops st).seqr.cursor := by
  induction ops generalizing st with
  | nil => exact ⟨hInv, le_refl _⟩
  | cons op tl ih =>
    obtain ⟨hInv2, hmono⟩ := pstep_preserves N st op hInv
    obtain ⟨hInv3, hmono2⟩ := ih (pstep N st op) hInv2
    exact ⟨hInv3, le_trans hmono hmono2⟩

/-- C5: monotonic cursor.  For every protocol-following trace of
producer operations starting from the freshly constructed sequencer
(cursor −1), the cursor observed after the first `i` operations is at
most the cursor observed after the first `j` operations whenever
`i ≤ j`. -/
theorem cursor_monotonic (N : ℕ) (ops : List POp) (i j : ℕ) (hij : i ≤ j) :
    (prun N (ops.take i) ProducerState.init).seqr.cursor ≤
      (prun N (ops.take j) ProducerState.init).seqr.cursor := by
  have hsplit : ops.take j = ops.take i ++ (ops.drop i).take (j - i) := by
    conv_lhs => rw [show j = i + (j - i) by omega]
    rw [List.take_add]
  rw [hsplit]
  unfold prun
  rw [List.foldl_append]
  have hInv := (prun_preserves N (ops.take i) ProducerState.init PInv_init).1
  exact (prun_preserves N ((ops.drop i).take (j - i)) _ hInv).2

theorem cursor_monotonic_witness :
    (prun 4 ([POp.claim 1 (fun _ => []) 1, POp.publish].take 1)
        ProducerState.init).seqr.cursor ≤
      (prun 4 ([POp.claim 1 (fun _ => []) 1, POp.publish].take 2)
        ProducerState.init).seqr.cursor :=
  cursor_monotonic 4 [POp.claim 1 (fun _ => []) 1, POp.publish] 1 2
    (by decide)

/-!
Wait strategies (`wait_strategies.h`).  `dependents_get` takes the
dependent sequence pointers as `Option Int` values (a null pointer is
skipped by the source's `if (seq)` guard); the busy-spin `waitFor` loop
is modelled with fuel over per-poll observation oracles.
-/

/-- `dependents_get(cursor, dependents, minimum)`: the cursor value when
the dependent set is empty, otherwise the fold of `min` over the
non-null dependent sequence values starting from `minimum`. -/
def dependents_get (cursor : Int) (dependents : List (Option Int))
    (minimum : Int) : Int :=
  if dependents.isEmpty then cursor
  else
    dependents.foldl
      (fun m o => match o with | some v => min m v | none => m) minimum

/-- Result of `BusySpinWaitStrategy::waitFor`: either the
`AlertException` raised by `barrier.checkAlert()` or a normal return of
the available sequence. -/
inductive WaitOutcome
  | alerted
  | avail (v : Int)
deriving DecidableEq, Repr

/-- `BusySpinWaitStrategy::waitFor(sequence, cursor, dependents, barrier)`.
`cursorAt k` / `depsAt k` are the cursor and dependent values observed
at the k-th poll and `alertedAt k` is the barrier's alert flag as read
by `checkAlert()` inside the k-th iteration; `none` means the spin loop
was still running when the fuel ran out. -/
def busySpinWaitFor (sequence : Int) (cursorAt : ℕ → Int)
    (depsAt : ℕ → List (Option Int)) (alertedAt : ℕ → Bool) :
    ℕ → ℕ → Option WaitOutcome
  | 0, _ => none
  | fuel + 1, k =>
    let available := dependents_get (cursorAt k) (depsAt k) int64Max
    if available < sequence then
      if alertedAt k then some WaitOutcome.alerted
      else busySpinWaitFor sequence cursorAt depsAt alertedAt fuel (k + 1)
    else some (WaitOutcome.avail available)

lemma busySpinWaitFor_avail (sequence : Int) (cursorAt : ℕ → Int)
    (depsAt : ℕ → List (Option Int)) (alertedAt : ℕ → Bool) :
    ∀ fuel k v,
      busySpinWaitFor sequence cursorAt depsAt alertedAt fuel k =
          some (WaitOutcome.avail v) →
      sequence ≤ v ∧ ∃ m, v = dependents_get (cursorAt m) (depsAt m) int64Max := by
  intro fuel
  induction fuel with
  | zero => intro k v h; simp [busySpinWaitFor] at h
  | succ fuel ih =>
    intro k v h
    simp only [busySpinWaitFor] at h
    split at h
    · split at h
      · exact absurd (Option.some.injEq .. ▸ h) (by simp)
      · exact ih (k + 1) v h
    · rename_i hge
      have hv := WaitOutcome.avail.injEq .. ▸ Option.some.injEq .. ▸ h
      subst hv
      exact ⟨le_of_not_lt hge, k, rfl⟩

/-- C8: effective sequence.  `dependents_get` returns `cursor.get()`
exactly when the dependent set is empty; when any dependent exists the
result is the fold of `min` over the (non-null) dependent values and
does not depend on the producer cursor at all; and whenever the
busy-spin `waitFor` returns normally, the returned value is what
`dependents_get` observed at the final poll and is at least the
requested sequence. -/
theorem effective_sequence
    (cursor : Int) (dependents : List (Option Int)) (minimum : Int) :
    (dependents.isEmpty → dependents_get cursor dependents minimum = cursor) ∧
      (¬ dependents.isEmpty →
        dependents_get cursor dependents minimum =
          (dependents.filterMap id).foldl (fun m v => min m v) minimum ∧
        ∀ cursor2, dependents_get cursor2 dependents minimum =
          dependents_get cursor dependents minimum) ∧
      (∀ (sequence : Int) (cursorAt : ℕ → Int)
          (depsAt : ℕ → List (Option Int)) (alertedAt : ℕ → Bool)
          (fuel k : ℕ) (v : Int),
        busySpinWaitFor sequence cursorAt depsAt alertedAt fuel k =
            some (WaitOutcome.avail v) →
        sequence ≤ v ∧
          ∃ m, v = dependents_get (cursorAt m) (depsAt m) int64Max) := by
  refine ⟨?_, ?_, busySpinWaitFor_avail⟩
  · intro he
    simp [dependents_get, he]
  · intro he
    constructor
    · simp only [dependents_get, if_neg he]
      clear he
      induction dependents generalizing minimum with
      | nil => simp
      | cons o tl ih =>
        cases o with
        | none => simpa using ih minimum
        | some v => simpa using ih (min minimum v)
    · intro cursor2
      unfold dependents_get
      rw [if_neg he, if_neg he]

theorem effective_sequence_witness :
    (([] : List (Option Int)).isEmpty →
        dependents_get 7 [] int64Max = 7) ∧
      (¬ ([some 4, some 2] : List (Option Int)).isEmpty →
        dependents_get 7 [some 4, some 2] int64Max =
          (([some 4, some 2] : List (Option Int)).filterMap id).foldl
            (fun m v => min m v) int64Max ∧
        ∀ cursor2, dependents_get cursor2 [some 4, some 2] int64Max =
          dependents_get 7 [some 4, some 2] int64Max) := by
  constructor
  · exact (effective_sequence 7 [] int64Max).1
  · exact (effective_sequence 7 [some 4, some 2] int64Max).2.1

/-!
Ring-buffer addressing (`ring_buffer.h`).  The C++ expression
`buffer_[sequence & (N - 1)]` converts the `int64_t` sequence to the
unsigned `size_t` (its value modulo 2^64, the two's-complement bit
pattern) and masks it with `N − 1`.
-/

/-- The index computed by `RingBuffer::get`: the two's-complement bit
pattern of `sequence` (its value modulo 2^64) bitwise-ANDed with
`N − 1`. -/
def ringIndex (N : ℕ) (s : Int) : ℕ :=
  (s % (2 ^ 64 : Int)).toNat &&& (N - 1)

/-- `RingBuffer::get(sequence)` over a slot array modelled as a list of
length `N`: fetch the slot at the masked index. -/
def ringGet {T : Type} (buffer : List T) (s : Int) : Option T :=
  buffer.get? (ringIndex buffer.length s)

lemma ringIndex_eq_emod (N : ℕ) (k : ℕ) (hk : N = 2 ^ k) (hk64 : k ≤ 64)
    (s : Int) : (ringIndex N s : Int) = s % (N : Int) := by
  have hdvd : (N : Int) ∣ (2 ^ 64 : Int) := by
    rw [hk]
    push_cast
    exact pow_dvd_pow 2 hk64
  have hmask : ringIndex N s = (s % (2 ^ 64 : Int)).toNat % N := by
    unfold ringIndex
    rw [hk]
    exact Nat.and_pow_two_sub_one_eq_mod _ k
  have hNpos : (0 : Int) < (N : Int) := by
    rw [hk]; push_cast; positivity
  have h2pos : (0 : Int) < (2 ^ 64 : Int) := by positivity
  have hnonneg : 0 ≤ s % (2 ^ 64 : Int) := Int.emod_nonneg s (ne_of_gt h2pos)
  rw [hmask, ← Int.ofNat_mod_ofNat, Int.toNat_of_nonneg hnonneg,
    Int.emod_emod_of_dvd s hdvd]

/-- C10: ring-buffer addressing totality.  For `N = 2^k` (`k ≤ 64`,
covering every `size_t` buffer size) the index `s & (N−1)` lies in
`[0, N)` for every `int64` sequence `s`, so `RingBuffer::get` always
hits the slot array; in particular `get(−1)` resolves to slot `N − 1`. -/
theorem ring_addressing_total (N : ℕ) (k : ℕ) (hk : N = 2 ^ k)
    (hk64 : k ≤ 64) :
    (∀ s : Int, ringIndex N s < N) ∧
      (∀ (T : Type) (buffer : List T) (s : Int), buffer.length = N →
        (ringGet buffer s).isSome) ∧
      ringIndex N (-1) = N - 1 := by
  have hNpos : 0 < N := by rw [hk]; positivity
  have hbound : ∀ s : Int, ringIndex N s < N := by
    intro s
    have h := ringIndex_eq_emod N k hk hk64 s
    have hlt : s % (N : Int) < (N : Int) :=
      Int.emod_lt_of_pos s (by exact_mod_cast hNpos)
    omega
  refine ⟨hbound, ?_, ?_⟩
  · intro T buffer s hlen
    have hidx : ringIndex buffer.length s < buffer.length := by
      rw [hlen]; exact hbound s
    simp [ringGet, List.get?_eq_getElem?, List.getElem?_eq_getElem hidx]
  · have h := ringIndex_eq_emod N k hk hk64 (-1)
    have hN1 : (1 : Int) ≤ (N : Int) := by exact_mod_cast hNpos
    have hmod : (-1 : Int) % (N : Int) = (N : Int) - 1 := by
      have h1 : (-1 : Int) % (N : Int) =
          ((N : Int) - 1 + (N : Int) * (-1)) % (N : Int) := by
        congr 1; ring
      rw [h1, Int.add_mul_emod_self_left,
        Int.emod_eq_of_lt (by linarith) (by linarith)]
    rw [hmod] at h
    clear hk hmod
    omega

theorem ring_addressing_total_witness :
    (∀ s : Int, ringIndex 8 s < 8) ∧
      (∀ (T : Type) (buffer : List T) (s : Int), buffer.length = 8 →
        (ringGet buffer s).isSome) ∧
      ringIndex 8 (-1) = 7 :=
  ring_addressing_total 8 3 (by decide) (by decide)

/-!
Event processor (`event_processor.h`, `exception_handler.h`).

`running_` is the atomic `ProcessorState`; reads of it from the loop are
fed by an oracle `rsRead : ℕ → RState` indexed by a read counter (a
concurrent `halt()` may change the value between reads).  The result of
`sequenceBarrier_.waitFor(nextSequence)` in the k-th loop iteration is
given by the oracle `wf : ℕ → WaitRes` (either an available sequence or
an `AlertException`).  Handler and policy behaviour are oracles as
well: `onEv s` says whether `onEvent` at sequence `s` returns normally
or throws a `std::exception`, and `policyEv s` says whether
`handleEventException` at `s` returns normally (`false` = it re-raises,
which is what `DefaultExceptionHandler` always does).  Every callback
invocation and every store to `sequence_` / `running_` is recorded in
an ordered trace.
-/

/-- `ProcessorState` from `event_processor.h`. -/
inductive RState
  | IDLE
  | HALTED
  | RUNNING
deriving DecidableEq, Repr

/-- Trace events: callback invocations and stores performed by the
processor, in program order. -/
inductive CB
  | clearAlert
  | onStart
  | onBatchStart (batchSize queueDepth : Int)
  | onEvent (s : Int) (endOfBatch : Bool)
  | policyEvent (s : Int)
  | policyStart
  | policyShutdown
  | setSeq (v : Int)
  | storeState (s : RState)
  | onShutdown
deriving DecidableEq, Repr

/-- Behaviour of one `handler.onEvent` call. -/
inductive EvRes
  | ok
  | throwStd
deriving DecidableEq, Repr

/-- Result of one `sequenceBarrier_.waitFor(nextSequence)` call:
a normal return of the available sequence, or an `AlertException`. -/
inductive WaitRes
  | avail (v : Int)
  | alertThrow
deriving DecidableEq, Repr

/-- The inner `while (nextSequence <= endOfBatch)` dispatch loop of
`EventProcessor::processEvents`, called with
`cnt = endOfBatch + 1 − nextSequence` events left to deliver.  Returns
the `onEvent` invocations (each with its `nextSequence == endOfBatch`
flag) together with `some s` if `onEvent` threw at sequence `s` (at
which point `nextSequence` still equals `s`), `none` if the batch
completed. -/
def runBatch (onEv : Int → EvRes) (endOfBatch : Int) :
    ℕ → Int → List CB × Option Int
  | 0, _ => ([], none)
  | cnt + 1, next =>
    match onEv next with
    | EvRes.throwStd => ([CB.onEvent next (decide (next = endOfBatch))], some next)
    | EvRes.ok =>
      let rest := runBatch onEv endOfBatch cnt (next + 1)
      (CB.onEvent next (decide (next = endOfBatch)) :: rest.1, rest.2)

/-- How one iteration of the `processEvents` loop ended. -/
inductive IterExit
  | cont
  | fatal
  | alertBreak
  | alertRethrow
deriving DecidableEq, Repr

/-- Result of one iteration of the `processEvents` loop body. -/
structure IterOut where
  exit : IterExit
  next : Int
  seqVal : Int
  trace : List CB
deriving DecidableEq, Repr

/-- One execution of the body of the `while` loop in
`EventProcessor::processEvents`, after the `running_` check.
`rs2` is the value of `running_` read inside the `AlertException`
handler; `wr` is what `sequenceBarrier_.waitFor(nextSequence)` did.
On a normal `waitFor` return: compute
`endOfBatch = min(nextSequence + batchSizeOffset_, availableSequence)`,
invoke `onBatchStart` if the batch is non-empty, dispatch the events,
then `sequence_.set(endOfBatch)`.  If `onEvent` throws at `s`, invoke
`handleEventException`; if the policy returns, `sequence_.set(s)` and
`++nextSequence`; if it re-raises, the exception leaves the loop. -/
def peIteration (off : Int) (onEv : Int → EvRes) (policyEv : Int → Bool)
    (rs2 : RState) (wr : WaitRes) (next seqVal : Int) : IterOut :=
  match wr with
  | WaitRes.alertThrow =>
    if rs2 ≠ RState.RUNNING then ⟨IterExit.alertBreak, next, seqVal, []⟩
    else ⟨IterExit.alertRethrow, next, seqVal, []⟩
  | WaitRes.avail available =>
    let endOfBatch := min (next + off) available
    let startTr : List CB :=
      if next ≤ endOfBatch then
        [CB.onBatchStart (endOfBatch - next + 1) (available - next + 1)]
      else []
    match runBatch onEv endOfBatch (endOfBatch + 1 - next).toNat next with
    | (tr, none) =>
      ⟨IterExit.cont, endOfBatch + 1, endOfBatch,
        startTr ++ tr ++ [CB.setSeq endOfBatch]⟩
    | (tr, some s) =>
      if policyEv s then
        ⟨IterExit.cont, s + 1, s, startTr ++ tr ++ [CB.policyEvent s, CB.setSeq s]⟩
      else
        ⟨IterExit.fatal, s, seqVal, startTr ++ tr ++ [CB.policyEvent s]⟩

/-- How `processEvents` as a whole ended: the loop condition became
false, an alert was caught with `running_ ≠ RUNNING` (`break`), an
`AlertException` propagated out, a `std::exception` propagated out
(policy re-raise), or the fuel ran out while the loop was still
going. -/
inductive PEExit
  | normalRet
  | alertBreakRet
  | alertThrown
  | stdThrown
  | outOfFuel
deriving DecidableEq, Repr

/-- Result of running the `processEvents` loop: exit kind, final
`nextSequence`, final `sequence_` value, `running_`-read counter after
exit, and the trace. -/
structure LoopOut where
  exitKind : PEExit
  next : Int
  seqVal : Int
  t : ℕ
  trace : List CB
deriving DecidableEq, Repr

/-- The `while (running_.load() == RUNNING)` loop of
`EventProcessor::processEvents`.  `t` counts reads of `running_`
(the loop-condition read, plus the read inside the alert handler) and
`i` counts `waitFor` calls. -/
def peLoop (off : Int) (onEv : Int → EvRes) (policyEv : Int → Bool)
    (rsRead : ℕ → RState) (wf : ℕ → WaitRes) :
    ℕ → ℕ → ℕ → Int → Int → LoopOut
  | 0, t, _, next, seqVal => ⟨PEExit.outOfFuel, next, seqVal, t, []⟩
  | fuel + 1, t, i, next, seqVal =>
    if rsRead t ≠ RState.RUNNING then ⟨PEExit.normalRet, next, seqVal, t + 1, []⟩
    else
      let it := peIteration off onEv policyEv (rsRead (t + 1)) (wf i) next seqVal
      match it.exit with
      | IterExit.cont =>
        let rest := peLoop off onEv policyEv rsRead wf fuel (t + 1) (i + 1)
          it.next it.seqVal
        ⟨rest.exitKind, rest.next, rest.seqVal, rest.t, it.trace ++ rest.trace⟩
      | IterExit.alertBreak => ⟨PEExit.alertBreakRet, it.next, it.seqVal, t + 2, it.trace⟩
      | IterExit.alertRethrow => ⟨PEExit.alertThrown, it.next, it.seqVal, t + 2, it.trace⟩
      | IterExit.fatal => ⟨PEExit.stdThrown, it.next, it.seqVal, t + 2, it.trace⟩

/-- How `EventProcessor::run()` ended. -/
inductive RunRes
  | lifecycleError
  | graceful
  | fatalThrown
  | alertEscape
  | startFatal
  | shutdownFatal
  | outOfFuel
deriving DecidableEq, Repr

/-- Result of `run()`: outcome plus the ordered trace of callbacks and
stores. -/
structure RunOut where
  res : RunRes
  trace : List CB
deriving DecidableEq, Repr

/-- `EventProcessor::notifyStart`: invoke `onStart`; a `std::exception`
from it is routed to `handleOnStartException`, whose own throw (the
default behaviour) escapes.  Returns the trace and whether an exception
escaped. -/
def notifyStartTr (onStartThrows policyStartReturns : Bool) : List CB × Bool :=
  if onStartThrows then ([CB.onStart, CB.policyStart], !policyStartReturns)
  else ([CB.onStart], false)

/-- `EventProcessor::notifyShutdown`, analogously. -/
def notifyShutdownTr (onShutdownThrows policyShutdownReturns : Bool) :
    List CB × Bool :=
  if onShutdownThrows then ([CB.onShutdown, CB.policyShutdown], !policyShutdownReturns)
  else ([CB.onShutdown], false)

/-- `EventProcessor::run()`.  `rs0` is the value of `running_` the CAS
observes.  On CAS failure throw "already running" with nothing else
done.  Otherwise store RUNNING, `clearAlert`, `notifyStart`, run the
loop; route its exit through the `AlertException` / catch-all handlers
exactly as the source does (`notifyShutdown` and the IDLE store are
skipped when an `AlertException` is re-raised, and the IDLE store is
skipped when `notifyShutdown` itself throws). -/
def runModel (rs0 : RState) (off : Int) (onEv : Int → EvRes)
    (policyEv : Int → Bool) (rsRead : ℕ → RState) (wf : ℕ → WaitRes)
    (fuel : ℕ) (seqVal0 : Int)
    (onStartThrows policyStartReturns onShutdownThrows policyShutdownReturns : Bool) :
    RunOut :=
  if rs0 ≠ RState.IDLE then ⟨RunRes.lifecycleError, []⟩
  else
    let tr0 := [CB.storeState RState.RUNNING, CB.clearAlert]
    let ns := notifyStartTr onStartThrows policyStartReturns
    if ns.2 then ⟨RunRes.startFatal, tr0 ++ ns.1⟩
    else
      let lo := peLoop off onEv policyEv rsRead wf fuel 0 0 (seqVal0 + 1) seqVal0
      match lo.exitKind with
      | PEExit.outOfFuel => ⟨RunRes.outOfFuel, tr0 ++ ns.1 ++ lo.trace⟩
      | PEExit.normalRet =>
        let nd := notifyShutdownTr onShutdownThrows policyShutdownReturns
        if nd.2 then ⟨RunRes.shutdownFatal, tr0 ++ ns.1 ++ lo.trace ++ nd.1⟩
        else
          ⟨RunRes.graceful,
            tr0 ++ ns.1 ++ lo.trace ++ nd.1 ++ [CB.storeState RState.IDLE]⟩
      | PEExit.alertBreakRet =>
        let nd := notifyShutdownTr onShutdownThrows policyShutdownReturns
        if nd.2 then ⟨RunRes.shutdownFatal, tr0 ++ ns.1 ++ lo.trace ++ nd.1⟩
        else
          ⟨RunRes.graceful,
            tr0 ++ ns.1 ++ lo.trace ++ nd.1 ++ [CB.storeState RState.IDLE]⟩
      | PEExit.alertThrown =>
        if rsRead lo.t ≠ RState.RUNNING then
          let nd := notifyShutdownTr onShutdownThrows policyShutdownReturns
          if nd.2 then ⟨RunRes.shutdownFatal, tr0 ++ ns.1 ++ lo.trace ++ nd.1⟩
          else
            ⟨RunRes.graceful,
              tr0 ++ ns.1 ++ lo.trace ++ nd.1 ++ [CB.storeState RState.IDLE]⟩
        else ⟨RunRes.alertEscape, tr0 ++ ns.1 ++ lo.trace⟩
      | PEExit.stdThrown =>
        let nd := notifyShutdownTr onShutdownThrows policyShutdownReturns
        if nd.2 then ⟨RunRes.shutdownFatal, tr0 ++ ns.1 ++ lo.trace ++ nd.1⟩
        else
          ⟨RunRes.fatalThrown,
            tr0 ++ ns.1 ++ lo.trace ++ nd.1 ++ [CB.storeState RState.IDLE]⟩

/-- `EventProcessor::halt()` acting on the processor's `running_` flag
and its barrier's alert flag: store HALTED, then `barrier.alert()`
(store `true`, plus the busy-spin no-op signal). -/
structure HaltSt where
  runState : RState
  alerted : Bool
deriving DecidableEq, Repr

def haltOp (st : HaltSt) : HaltSt :=
  { runState := RState.HALTED, alerted := true }

-- Facts about the inner dispatch loop.

lemma runBatch_all_ok (onEv : Int → EvRes) (e : Int) :
    ∀ (cnt : ℕ) (next : Int),
      (∀ k : ℕ, k < cnt → onEv (next + (k : Int)) = EvRes.ok) →
      runBatch onEv e cnt next =
        ((List.range cnt).map
          (fun (k : ℕ) => CB.onEvent (next + (k : Int))
            (decide (next + (k : Int) = e))), none) := by
  intro cnt
  induction cnt with
  | zero => intro next _; simp [runBatch]
  | succ cnt ih =>
    intro next h
    have h0 : onEv next = EvRes.ok := by
      have := h 0 (Nat.succ_pos cnt)
      simpa using this
    have hrest := ih (next + 1) (fun k hk => by
      have hx := h (k + 1) (by omega)
      have hc : next + ((k : Int) + 1) = next + 1 + (k : Int) := by ring
      rw [Nat.cast_add, Nat.cast_one, hc] at hx
      exact hx)
    simp only [runBatch, h0, hrest]
    rw [List.range_succ_eq_map, List.map_cons, List.map_map]
    refine Prod.ext ?_ rfl
    simp only [Nat.cast_zero, add_zero]
    congr 1
    apply List.map_congr_left
    intro k _
    simp only [Function.comp_apply, Nat.succ_eq_add_one, Nat.cast_add, Nat.cast_one]
    have hc : next + ((k : Int) + 1) = next + 1 + (k : Int) := by ring
    rw [hc]

lemma runBatch_trace_onEvent (onEv : Int → EvRes) (e : Int) :
    ∀ (cnt : ℕ) (next : Int) (c : CB),
      c ∈ (runBatch onEv e cnt next).1 → ∃ v b, c = CB.onEvent v b := by
  intro cnt
  induction cnt with
  | zero => intro next c hc; simp [runBatch] at hc
  | succ cnt ih =>
    intro next c hc
    simp only [runBatch] at hc
    split at hc
    · rw [List.mem_singleton] at hc
      exact ⟨next, _, hc⟩
    · rcases List.mem_cons.mp hc with hc | hc
      · exact ⟨next, _, hc⟩
      · exact ih (next + 1) c hc

lemma runBatch_throw (onEv : Int → EvRes) (e : Int) :
    ∀ (cnt : ℕ) (next : Int) (tr : List CB) (s : Int),
      runBatch onEv e cnt next = (tr, some s) →
      onEv s = EvRes.throwStd ∧ next ≤ s := by
  intro cnt
  induction cnt with
  | zero => intro next tr s h; simp [runBatch] at h
  | succ cnt ih =>
    intro next tr s h
    simp only [runBatch] at h
    split at h
    · rename_i hev
      obtain ⟨_, hs⟩ := Prod.mk.injEq .. ▸ h
      obtain rfl := Option.some.injEq .. ▸ hs.symm
      exact ⟨hev, le_refl _⟩
    · rename_i hev
      obtain ⟨htr, hs⟩ := Prod.mk.injEq .. ▸ h
      obtain ⟨ho, hns⟩ := ih (next + 1) (runBatch onEv e cnt (next + 1)).1 s
        (by rw [← hs])
      exact ⟨ho, by linarith⟩

/-- C2: batch boundaries.  In an iteration of the batching loop where a
batch is delivered (`next ≤ available`) and no event throws,
`endOfBatch = min(next + batchSizeOffset, available)`; the batch length
is at most `batchSizeOffset + 1` (the configured batch size) and
`endOfBatch ≤ available`; the trace is exactly one
`onBatchStart(endOfBatch − next + 1, available − next + 1)`, followed by
`onEvent` for each sequence from `next` to `endOfBatch` in ascending
order with the end-of-batch flag true iff the sequence equals
`endOfBatch`, followed by a single `sequence_.set(endOfBatch)` after the
last `onEvent`. -/
theorem batch_boundaries (off : Int) (onEv : Int → EvRes)
    (policyEv : Int → Bool) (rs2 : RState) (available next seqVal : Int)
    (hoff : 0 ≤ off) (hb : next ≤ available)
    (hok : ∀ s : Int, next ≤ s → s ≤ min (next + off) available →
      onEv s = EvRes.ok) :
    peIteration off onEv policyEv rs2 (WaitRes.avail available) next seqVal =
      ⟨IterExit.cont, min (next + off) available + 1,
        min (next + off) available,
        CB.onBatchStart (min (next + off) available - next + 1)
            (available - next + 1) ::
          ((List.range (min (next + off) available + 1 - next).toNat).map
            (fun (k : ℕ) => CB.onEvent (next + (k : Int))
              (decide (next + (k : Int) = min (next + off) available))) ++
            [CB.setSeq (min (next + off) available)])⟩ ∧
      min (next + off) available ≤ available ∧
      min (next + off) available - next + 1 ≤ off + 1 ∧
      next ≤ min (next + off) available := by
  have hmin1 : min (next + off) available ≤ next + off := min_le_left _ _
  have hmin2 : min (next + off) available ≤ available := min_le_right _ _
  have he1 : next ≤ min (next + off) available := le_min (by linarith) hb
  have hall : ∀ k : ℕ, k < (min (next + off) available + 1 - next).toNat →
      onEv (next + (k : Int)) = EvRes.ok := by
    intro k hk
    refine hok _ (by omega) (by omega)
  refine ⟨?_, hmin2, by omega, he1⟩
  simp only [peIteration]
  rw [runBatch_all_ok onEv (min (next + off) available) _ next hall]
  rw [if_pos he1]
  simp [List.append_assoc]

theorem batch_boundaries_witness :
    peIteration 3 (fun _ => EvRes.ok) (fun _ => false) RState.RUNNING
        (WaitRes.avail 9) 0 (-1) =
      ⟨IterExit.cont, min ((0 : Int) + 3) 9 + 1, min ((0 : Int) + 3) 9,
        CB.onBatchStart (min ((0 : Int) + 3) 9 - 0 + 1) ((9 : Int) - 0 + 1) ::
          ((List.range ((min ((0 : Int) + 3) 9 + 1 - 0).toNat)).map
            (fun (k : ℕ) => CB.onEvent ((0 : Int) + (k : Int))
              (decide ((0 : Int) + (k : Int) = min ((0 : Int) + 3) 9))) ++
            [CB.setSeq (min ((0 : Int) + 3) 9)])⟩ ∧
      min ((0 : Int) + 3) 9 ≤ 9 ∧
      min ((0 : Int) + 3) 9 - 0 + 1 ≤ (3 : Int) + 1 ∧
      (0 : Int) ≤ min ((0 : Int) + 3) 9 :=
  batch_boundaries 3 (fun _ => EvRes.ok) (fun _ => false) RState.RUNNING 9 0
    (-1) (by decide) (by decide) (fun s _ _ => rfl)

/-- C7: run lifecycle guard.  `run()` CASes `running_` from IDLE to
RUNNING; the call fails with the "already running" error exactly when
the starting state is not IDLE, and on failure nothing else happens:
no state store, no `clearAlert`, and no handler callback appears in the
trace (it is empty). -/
theorem run_lifecycle_guard (rs0 : RState) (off : Int) (onEv : Int → EvRes)
    (policyEv : Int → Bool) (rsRead : ℕ → RState) (wf : ℕ → WaitRes)
    (fuel : ℕ) (seqVal0 : Int) (a b c d : Bool) :
    ((runModel rs0 off onEv policyEv rsRead wf fuel seqVal0 a b c d).res =
        RunRes.lifecycleError ↔ rs0 ≠ RState.IDLE) ∧
      (rs0 ≠ RState.IDLE →
        runModel rs0 off onEv policyEv rsRead wf fuel seqVal0 a b c d =
          ⟨RunRes.lifecycleError, []⟩) := by
  by_cases h : rs0 = RState.IDLE
  · subst h
    refine ⟨⟨?_, fun hne => absurd rfl hne⟩, fun hne => absurd rfl hne⟩
    intro hres
    exfalso
    revert hres
    unfold runModel
    rw [if_neg (by simp)]
    dsimp only
    split
    · simp
    · split <;> (try split) <;> (try split) <;> simp
  · refine ⟨⟨fun _ => h, fun _ => ?_⟩, fun _ => ?_⟩ <;>
      · unfold runModel
        rw [if_pos h]

theorem run_lifecycle_guard_witness :
    ((runModel RState.RUNNING 63 (fun _ => EvRes.ok) (fun _ => false)
          (fun _ => RState.RUNNING) (fun _ => WaitRes.alertThrow) 1 (-1)
          false false false false).res = RunRes.lifecycleError ↔
        RState.RUNNING ≠ RState.IDLE) ∧
      (RState.RUNNING ≠ RState.IDLE →
        runModel RState.RUNNING 63 (fun _ => EvRes.ok) (fun _ => false)
            (fun _ => RState.RUNNING) (fun _ => WaitRes.alertThrow) 1 (-1)
            false false false false =
          ⟨RunRes.lifecycleError, []⟩) :=
  run_lifecycle_guard RState.RUNNING 63 (fun _ => EvRes.ok) (fun _ => false)
    (fun _ => RState.RUNNING) (fun _ => WaitRes.alertThrow) 1 (-1)
    false false false false

/-- C4: event-exception path.  If `onEvent` throws a non-alert exception
at sequence `s` inside the batch (the dispatch loop stops with pending
exception at `s`, where `nextSequence == s`), then (i) the exception is
the handler's (`onEv s = throwStd`); (ii) if
`handleEventException` returns normally the iteration performs
`sequence_.set(s)` and continues with `nextSequence = s + 1`; (iii) if
the policy re-raises, the iteration exits fatally with the processor
sequence untouched and no `sequence_.set` anywhere in its trace — with
the default always-re-raising policy the advance is never reached; and
(iv) when the loop exits with a propagating `std::exception`, `run()`
invokes `onShutdown`, stores `running_ = IDLE` and re-raises (outcome
`fatalThrown`). -/
theorem event_exception_path :
    (∀ (onEv : Int → EvRes) (e : Int) (cnt : ℕ) (next : Int) (tr : List CB)
        (s : Int), runBatch onEv e cnt next = (tr, some s) →
      onEv s = EvRes.throwStd ∧ next ≤ s) ∧
    (∀ (off : Int) (onEv : Int → EvRes) (policyEv : Int → Bool) (rs2 : RState)
        (available next seqVal : Int) (tr : List CB) (s : Int),
      runBatch onEv (min (next + off) available)
          (min (next + off) available + 1 - next).toNat next = (tr, some s) →
      policyEv s = true →
      peIteration off onEv policyEv rs2 (WaitRes.avail available) next seqVal =
        ⟨IterExit.cont, s + 1, s,
          (if next ≤ min (next + off) available then
            [CB.onBatchStart (min (next + off) available - next + 1)
              (available - next + 1)]
          else []) ++ tr ++ [CB.policyEvent s, CB.setSeq s]⟩) ∧
    (∀ (off : Int) (onEv : Int → EvRes) (policyEv : Int → Bool) (rs2 : RState)
        (available next seqVal : Int) (tr : List CB) (s : Int),
      runBatch onEv (min (next + off) available)
          (min (next + off) available + 1 - next).toNat next = (tr, some s) →
      policyEv s = false →
      peIteration off onEv policyEv rs2 (WaitRes.avail available) next seqVal =
        ⟨IterExit.fatal, s, seqVal,
          (if next ≤ min (next + off) available then
            [CB.onBatchStart (min (next + off) available - next + 1)
              (available - next + 1)]
          else []) ++ tr ++ [CB.policyEvent s]⟩ ∧
      (∀ v, CB.setSeq v ∉
        (peIteration off onEv policyEv rs2 (WaitRes.avail available)
          next seqVal).trace)) ∧
    (∀ (off : Int) (onEv : Int → EvRes) (policyEv : Int → Bool)
        (rsRead : ℕ → RState) (wf : ℕ → WaitRes) (fuel : ℕ) (seqVal0 : Int),
      (peLoop off onEv policyEv rsRead wf fuel 0 0 (seqVal0 + 1)
          seqVal0).exitKind = PEExit.stdThrown →
      runModel RState.IDLE off onEv policyEv rsRead wf fuel seqVal0
          false true false true =
        ⟨RunRes.fatalThrown,
          [CB.storeState RState.RUNNING, CB.clearAlert, CB.onStart] ++
            (peLoop off onEv policyEv rsRead wf fuel 0 0 (seqVal0 + 1)
              seqVal0).trace ++
            [CB.onShutdown, CB.storeState RState.IDLE]⟩) := by
  refine ⟨runBatch_throw, ?_, ?_, ?_⟩
  · intro off onEv policyEv rs2 available next seqVal tr s hrb hpol
    simp only [peIteration]
    rw [hrb]
    dsimp only
    simp [hpol, List.append_assoc]
  · intro off onEv policyEv rs2 available next seqVal tr s hrb hpol
    have heq : peIteration off onEv policyEv rs2 (WaitRes.avail available)
        next seqVal =
        ⟨IterExit.fatal, s, seqVal,
          (if next ≤ min (next + off) available then
            [CB.onBatchStart (min (next + off) available - next + 1)
              (available - next + 1)]
          else []) ++ tr ++ [CB.policyEvent s]⟩ := by
      simp only [peIteration]
      rw [hrb]
      dsimp only
      simp [hpol]
    refine ⟨heq, ?_⟩
    intro v hv
    rw [heq] at hv
    dsimp only at hv
    rcases List.mem_append.mp hv with hv | hv
    · rcases List.mem_append.mp hv with hv | hv
      · split at hv
        · rw [List.mem_singleton] at hv
          exact CB.noConfusion hv
        · exact absurd hv (List.not_mem_nil _)
      · have htr : tr = (runBatch onEv (min (next + off) available)
            (min (next + off) available + 1 - next).toNat next).1 := by
          rw [hrb]
        rw [htr] at hv
        obtain ⟨v2, b2, hc⟩ := runBatch_trace_onEvent _ _ _ _ _ hv
        exact CB.noConfusion hc
    · rw [List.mem_singleton] at hv
      exact CB.noConfusion hv
  · intro off onEv policyEv rsRead wf fuel seqVal0 hexit
    unfold runModel
    rw [if_neg (by simp)]
    dsimp only [notifyStartTr, notifyShutdownTr, Bool.not_true]
    rw [if_neg (by simp)]
    rw [hexit]
    dsimp only
    rw [if_neg (by simp)]
    simp [List.append_assoc]

theorem event_exception_path_witness :
    runModel RState.IDLE 3 (fun _ => EvRes.throwStd) (fun _ => false)
        (fun _ => RState.RUNNING) (fun _ => WaitRes.avail 2) 1 (-1)
        false true false true =
      ⟨RunRes.fatalThrown,
        [CB.storeState RState.RUNNING, CB.clearAlert, CB.onStart] ++
          (peLoop 3 (fun _ => EvRes.throwStd) (fun _ => false)
            (fun _ => RState.RUNNING) (fun _ => WaitRes.avail 2) 1 0 0
            ((-1 : Int) + 1) (-1)).trace ++
          [CB.onShutdown, CB.storeState RState.IDLE]⟩ :=
  event_exception_path.2.2.2 3 (fun _ => EvRes.throwStd) (fun _ => false)
    (fun _ => RState.RUNNING) (fun _ => WaitRes.avail 2) 1 (-1) rfl

/-- C6 counterexample: `halt()` on an IDLE processor is NOT a no-op.
`halt()` unconditionally stores HALTED, so after halting an IDLE
processor (one whose `run()` has not been called) a subsequent `run()`
finds `running_ = HALTED`, the IDLE→RUNNING CAS fails, and the call
throws "EventProcessor already running" — whereas the same `run()`
without the intervening `halt()` proceeds normally. -/
theorem halt_on_idle_not_noop :
    (haltOp ⟨RState.IDLE, false⟩).runState = RState.HALTED ∧
      (runModel (haltOp ⟨RState.IDLE, false⟩).runState 63 (fun _ => EvRes.ok)
          (fun _ => false) (fun _ => RState.HALTED)
          (fun _ => WaitRes.avail (-1)) 1 (-1) false true false true).res =
        RunRes.lifecycleError ∧
      (runModel RState.IDLE 63 (fun _ => EvRes.ok) (fun _ => false)
          (fun _ => RState.HALTED) (fun _ => WaitRes.avail (-1)) 1 (-1)
          false true false true).res = RunRes.graceful :=
  ⟨rfl, rfl, rfl⟩

/-- C6 (amended): repeated `halt()` is idempotent and safe — every call
leaves `running_ = HALTED` with the barrier alerted, and a second call
changes nothing — but `halt()` on an IDLE processor is not a no-op: it
stores HALTED, so any subsequent `run()` fails with the
"already running" lifecycle error instead of behaving as if `halt()`
had not been called. -/
theorem halt_idempotent (st : HaltSt) (off : Int) (onEv : Int → EvRes)
    (policyEv : Int → Bool) (rsRead : ℕ → RState) (wf : ℕ → WaitRes)
    (fuel : ℕ) (seqVal0 : Int) (a b c d : Bool) :
    haltOp (haltOp st) = haltOp st ∧
      (haltOp st).runState = RState.HALTED ∧
      (haltOp st).alerted = true ∧
      (runModel (haltOp st).runState off onEv policyEv rsRead wf fuel
          seqVal0 a b c d).res = RunRes.lifecycleError := by
  refine ⟨rfl, rfl, rfl, ?_⟩
  unfold runModel
  rw [if_pos (by simp [haltOp])]

theorem halt_idempotent_witness :
    haltOp (haltOp ⟨RState.IDLE, false⟩) = haltOp ⟨RState.IDLE, false⟩ ∧
      (haltOp ⟨RState.IDLE, false⟩).runState = RState.HALTED ∧
      (haltOp ⟨RState.IDLE, false⟩).alerted = true ∧
      (runModel (haltOp ⟨RState.IDLE, false⟩).runState 63 (fun _ => EvRes.ok)
          (fun _ => false) (fun _ => RState.RUNNING)
          (fun _ => WaitRes.alertThrow) 1 (-1) false false false false).res =
        RunRes.lifecycleError :=
  halt_idempotent ⟨RState.IDLE, false⟩ 63 (fun _ => EvRes.ok) (fun _ => false)
    (fun _ => RState.RUNNING) (fun _ => WaitRes.alertThrow) 1 (-1)
    false false false false
